import Mathlib

/-!
Verification development for the qfea-webapp quantum/FEA core.

Shallow embedding of:
  * `app/services/quantum_simulator.py` — `QuantumSimulator.compute_hamiltonian`
    (matrix padding, qubit count, capacity check) and
    `QuantumSimulator._calculate_final_amplitudes`, `QuantumSimulator._mock_simulation`;
  * `qfea_core/classical_utils/compute_pauli_coeffs_batch_parallel.py` —
    `compute_pauli_coefficients`;
  * `qfea_core/quantum_utils/trotter_circuit_synthesis.py` — `simulate_hamiltonian`
    and `_create_mock_circuit_result`;
  * `qfea_core/classical_utils/hamiltonian_prep.py` — the mode-count logic of
    `compute_H`.

Numeric model: Python/numpy doubles are modelled by exact rationals `ℚ`;
complex matrix entries by the pair type `CQ` below.  A test
`np.abs(z) > threshold` on a complex value is modelled by the equivalent
rational test `threshold < 0 ∨ threshold² < re² + im²` (see `AbsGt_iff_sqrt`
for the proof that this coincides with the square-root formulation).
-/

/-- Complex numbers with rational real and imaginary parts: the executable
model of numpy complex matrix entries. -/
structure CQ where
  re : ℚ
  im : ℚ
deriving DecidableEq, Repr

instance : Zero CQ := ⟨⟨0, 0⟩⟩

instance : Add CQ := ⟨fun a b => ⟨a.re + b.re, a.im + b.im⟩⟩

/-- Complex conjugate (used to state Hermiticity). -/
def CQ.conj (z : CQ) : CQ := ⟨z.re, -z.im⟩

/-- Division of a complex value by a natural number (`trace / n` in the source). -/
def CQ.divNat (z : CQ) (n : ℕ) : CQ := ⟨z.re / n, z.im / n⟩

/-- Squared modulus `re² + im²` of a complex value. -/
def CQ.absSq (z : CQ) : ℚ := z.re * z.re + z.im * z.im

/-- Model of the numpy test `np.abs(z) > t` for complex `z`:
`|z| > t` iff `t < 0` or `t² < re² + im²` (see `AbsGt_iff_sqrt`). -/
def AbsGt (z : CQ) (t : ℚ) : Prop := t < 0 ∨ t * t < z.absSq

instance (z : CQ) (t : ℚ) : Decidable (AbsGt z t) := by
  unfold AbsGt; infer_instance

/-- Model of the numpy test `np.abs(x) > t` for a real value. -/
def RAbsGt (x t : ℚ) : Prop := t < |x|

instance (x t : ℚ) : Decidable (RAbsGt x t) := by
  unfold RAbsGt; infer_instance

/-- A Hermitian `n × n` matrix: `H[j,i] = conj (H[i,j])` on all in-range indices. -/
def IsHermitian (H : ℕ → ℕ → CQ) (n : ℕ) : Prop :=
  ∀ i < n, ∀ j < n, H j i = (H i j).conj

instance (H : ℕ → ℕ → CQ) (n : ℕ) : Decidable (IsHermitian H n) := by
  unfold IsHermitian; infer_instance

/-- Trace of the leading `n × n` block: `np.trace(H)`. -/
def traceCQ (H : ℕ → ℕ → CQ) (n : ℕ) : CQ :=
  ((List.range n).map (fun i => H i i)).sum

/-!
## `QuantumSimulator.compute_hamiltonian` — padding stage
`app/services/quantum_simulator.py`, lines 45–58.

`num_qubits`/`padded_size` model `int(np.ceil(np.log2(n)))` and
`2 ** int(np.ceil(np.log2(n)))`; for `n ≥ 1` the float computation is exact
and equals `Nat.clog 2 n`.
-/

/-- `int(np.ceil(np.log2(n)))` for `n ≥ 1`. -/
def numQubits (n : ℕ) : ℕ := Nat.clog 2 n

/-- `padded_size = 2 ** int(np.ceil(np.log2(original_size)))` (line 47). -/
def padded_size (n : ℕ) : ℕ := 2 ^ Nat.clog 2 n

/-- Lines 49–52: if `original_size != padded_size`, allocate a zero matrix of
side `padded_size` and copy `H` into the leading `n × n` block; otherwise keep
`H` unchanged. -/
def pad_matrix (H : ℕ → ℕ → CQ) (n : ℕ) : ℕ → ℕ → CQ :=
  if n = padded_size n then H
  else fun i j => if i < n ∧ j < n then H i j else 0

/-- `qubit_count = int(np.log2(H.shape[0]))` (line 54), taken on the padded side. -/
def qubit_count_of (n : ℕ) : ℕ := Nat.log 2 (padded_size n)

/-- Python errors raised by `QuantumSimulator.compute_hamiltonian`. -/
inductive PyErr where
  /-- Line 58: `ValueError(f"System requires {qubit_count} qubits, maximum allowed
  is {self.max_qubits}")`, carrying the offending qubit count. -/
  | valueError (qubit_count : ℕ)
  /-- A `TypeError` at a call whose keyword arguments do not match the callee's
  signature. -/
  | typeError
deriving DecidableEq, Repr

/-- The success payload of `compute_hamiltonian` (the fields the spec contract
names; `norm` is represented by its square, which is rational). -/
structure HamiltonianResult where
  original_dimension : ℕ
  padded_dimension : ℕ
  qubit_count : ℕ
  trace : ℚ
  normSq : ℚ
deriving DecidableEq, Repr

/-- `self.max_qubits = 20` (`QuantumSimulator.__init__`, line 29). -/
def max_qubits : ℕ := 20

/-- Embedding of `QuantumSimulator.compute_hamiltonian` from the point where the
Hamiltonian matrix `H` (side `n ≥ 1`) is in hand — the spec states the contract
as "given any Hermitian H".  In the source, line 43 binds `H` to
`compute_H(M, K)`, which returns a *dict*, so line 46 `H.shape[0]` would raise
`AttributeError`; this embedding grants the matrix and follows lines 45–89:
pad (45–52), qubit count (54), capacity check (56–58), then the call at
lines 63–67 `compute_pauli_coefficients(H, max_pauli_terms=…, batch_size=…)`.
`compute_pauli_coefficients` is defined as
`def compute_pauli_coefficients(H, max_terms=100, threshold=1e-6, n_jobs=-1)`:
it accepts neither keyword `max_pauli_terms` nor `batch_size`, so in Python the
call itself raises `TypeError` before the callee runs; the embedding therefore
returns `.error .typeError` on that line for every input that passes the
capacity check. -/
def compute_hamiltonian (H : ℕ → ℕ → CQ) (n : ℕ) (max_pauli_terms : ℕ) :
    Except PyErr HamiltonianResult :=
  let padded := padded_size n
  let _Hp := pad_matrix H n
  let q := Nat.log 2 padded
  if max_qubits < q then
    Except.error (PyErr.valueError q)
  else
    let _ := max_pauli_terms
    Except.error PyErr.typeError

/-!
## `compute_pauli_coefficients`
`qfea_core/classical_utils/compute_pauli_coeffs_batch_parallel.py`, lines 12–131.

A candidate is a pair (Pauli string, coefficient).  Coefficients are carried as
`CQ`: the identity candidate's coefficient `trace / n` (line 69) is complex in
the source; all other appended coefficients (`H[i,i].real`, `coeff.real`,
`coeff.imag`) are real floats and are embedded with zero imaginary part.
-/

/-- One candidate term: Pauli string and its (possibly complex) coefficient. -/
abbrev Candidate := List Char × CQ

/-- `'I' * i + 'Z' + 'I' * (num_qubits - i - 1)` (line 75). -/
def zString (i nq : ℕ) : List Char :=
  List.replicate i 'I' ++ 'Z' :: List.replicate (nq - i - 1) 'I'

/-- `list('I' * num_qubits)` with character `c` written at positions `i` and `j`
(lines 95–97 and 102–104). -/
def pairString (c : Char) (i j nq : ℕ) : List Char :=
  (List.range nq).map (fun k => if k = i then c else if k = j then c else 'I')

/-- Step 2 (lines 72–80): for `i` over `range(min(num_qubits, n))`, if `i < n`
and `np.abs(H[i,i]) > threshold`, append the Z-string candidate with coefficient
`H[i,i].real`; after an append, `break` as soon as
`len(pauli_terms) >= max_terms`. -/
def zLoop (H : ℕ → ℕ → CQ) (n nq maxT : ℕ) (t : ℚ) :
    List ℕ → List Candidate → List Candidate
  | [], acc => acc
  | i :: rest, acc =>
    if i < n ∧ AbsGt (H i i) t then
      let acc2 := acc ++ [(zString i nq, ⟨(H i i).re, 0⟩)]
      if maxT ≤ acc2.length then acc2 else zLoop H n nq maxT t rest acc2
    else zLoop H n nq maxT t rest acc

/-- Step 3 inner loop (lines 85–112): for `j` over `range(i+1, min(num_qubits, n))`,
if `i < n and j < n` and `np.abs(H[i,j]) > threshold`, append the XX candidate
when `np.abs(real_part) > threshold` and the YY candidate when
`np.abs(imag_part) > threshold`.  The source checks
`len(pauli_terms) >= max_terms` both immediately after the appends (line 108)
and at the end of the loop body (line 111); both `break` the `j` loop, so the
observable behaviour is: after each `j` iteration, stop this `j` loop once the
accumulated length reaches `max_terms`. -/
def jLoop (H : ℕ → ℕ → CQ) (n nq maxT : ℕ) (t : ℚ) (i : ℕ) :
    List ℕ → List Candidate → List Candidate
  | [], acc => acc
  | j :: rest, acc =>
    let acc2 :=
      if i < n ∧ j < n ∧ AbsGt (H i j) t then
        let accX := if RAbsGt (H i j).re t then
            acc ++ [(pairString 'X' i j nq, ⟨(H i j).re, 0⟩)] else acc
        if RAbsGt (H i j).im t then
          accX ++ [(pairString 'Y' i j nq, ⟨(H i j).im, 0⟩)] else accX
      else acc
    if maxT ≤ acc2.length then acc2 else jLoop H n nq maxT t i rest acc2

/-- Step 3 outer loop (line 84): `for i in range(min(num_qubits, n - 1))`.
The source has no `break` at this level, so every `i` runs its `j` loop. -/
def iLoop (H : ℕ → ℕ → CQ) (n nq maxT : ℕ) (t : ℚ) :
    List ℕ → List Candidate → List Candidate
  | [], acc => acc
  | i :: rest, acc =>
    iLoop H n nq maxT t rest
      (jLoop H n nq maxT t i (List.range' (i + 1) (min nq n - (i + 1))) acc)

/-- Candidate collection, lines 59–112, with the qubit count `nq` as an explicit
argument: start empty; step 1 (lines 66–69) appends the all-identity string with
coefficient `trace / n` iff `np.abs(trace) > threshold`; step 2 appends Z
candidates; step 3 runs only if `len(pauli_terms) < max_terms` (line 83). -/
def collectCandidatesAux (H : ℕ → ℕ → CQ) (n nq maxT : ℕ) (t : ℚ) :
    List Candidate :=
  let tr := traceCQ H n
  let acc0 : List Candidate :=
    if AbsGt tr t then [(List.replicate nq 'I', tr.divNat n)] else []
  let acc1 := zLoop H n nq maxT t (List.range (min nq n)) acc0
  if acc1.length < maxT then
    iLoop H n nq maxT t (List.range (min nq (n - 1))) acc1
  else acc1

/-- Candidate collection with `nq = num_qubits = int(np.ceil(np.log2(n)))`
(line 46). -/
def collectCandidates (H : ℕ → ℕ → CQ) (n maxT : ℕ) (t : ℚ) : List Candidate :=
  collectCandidatesAux H n (numQubits n) maxT t

/-- Descending-magnitude order on candidates, the key of
`np.argsort(-np.abs(pauli_coeffs))` (line 118).  Comparing squared moduli is
equivalent to comparing moduli.  `np.argsort`'s default quicksort leaves the
relative order of tied magnitudes unspecified; the embedding fixes a stable
order. -/
def descMag (a b : Candidate) : Prop := b.2.absSq ≤ a.2.absSq

instance : DecidableRel descMag := fun a b => by unfold descMag; infer_instance

/-- Return value of `compute_pauli_coefficients` (lines 126–131).
`pauli_coefficients` holds `[float(c) for c in pauli_coeffs]`: for the real (for
Hermitian input) coefficients this is the real part. -/
structure PauliResult where
  pauli_terms : List (List Char)
  pauli_coefficients : List ℚ
  num_qubits : ℕ
  num_terms : ℕ
deriving DecidableEq, Repr

/-- Sort-and-truncate body of `compute_pauli_coefficients` with `nq` explicit:
collect candidates (lines 59–112), sort by descending magnitude and truncate to
`max_terms` (lines 114–120), package (lines 126–131). -/
def compute_pauli_coefficients_aux (H : ℕ → ℕ → CQ) (n nq maxT : ℕ) (t : ℚ) :
    PauliResult :=
  let collected := collectCandidatesAux H n nq maxT t
  let sorted := List.insertionSort descMag collected
  let final := sorted.take maxT
  { pauli_terms := final.map Prod.fst
    pauli_coefficients := final.map (fun p => p.2.re)
    num_qubits := nq
    num_terms := final.length }

/-- Embedding of `compute_pauli_coefficients(H, max_terms, threshold)`
(`n_jobs` is unused by the function body). -/
def compute_pauli_coefficients (H : ℕ → ℕ → CQ) (n maxT : ℕ) (t : ℚ) :
    PauliResult :=
  compute_pauli_coefficients_aux H n (numQubits n) maxT t

/-- Follows the spec's words (§4.2, claim C3): the *full* candidate set — the
identity candidate, every per-qubit Z candidate, and every `i<j` XX/YY
candidate clearing the threshold — with no cap during generation. -/
def specFullCandidatesAux (H : ℕ → ℕ → CQ) (n nq : ℕ) (t : ℚ) :
    List Candidate :=
  let tr := traceCQ H n
  let idC : List Candidate :=
    if AbsGt tr t then [(List.replicate nq 'I', tr.divNat n)] else []
  let zC : List Candidate :=
    (List.range (min nq n)).filterMap (fun i =>
      if AbsGt (H i i) t then some (zString i nq, ⟨(H i i).re, 0⟩) else none)
  let xyC : List Candidate :=
    ((List.range (min nq n)).flatMap (fun i =>
      (List.range' (i + 1) (min nq n - (i + 1))).flatMap (fun j =>
        (if RAbsGt (H i j).re t then
          [(pairString 'X' i j nq, (⟨(H i j).re, 0⟩ : CQ))] else []) ++
        (if RAbsGt (H i j).im t then
          [(pairString 'Y' i j nq, (⟨(H i j).im, 0⟩ : CQ))] else []))))
  idC ++ zC ++ xyC

/-- The full candidate set at `nq = num_qubits`. -/
def specFullCandidates (H : ℕ → ℕ → CQ) (n : ℕ) (t : ℚ) : List Candidate :=
  specFullCandidatesAux H n (numQubits n) t

/-- Follows the spec's words (§4.2 step 4, claim C3): merge the full candidate
set, sort by descending magnitude, truncate to `max_terms` only afterwards. -/
def specDecomposition (H : ℕ → ℕ → CQ) (n maxT : ℕ) (t : ℚ) : List Candidate :=
  (List.insertionSort descMag (specFullCandidates H n t)).take maxT

/-!
## `simulate_hamiltonian` and `_create_mock_circuit_result`
`qfea_core/quantum_utils/trotter_circuit_synthesis.py`, lines 20–186.

The qiskit backend availability flag `QISKIT_AVAILABLE` is an input `avail`.
The circuit is embedded as the list of instructions appended to
`circuit.data`: one `h` per qubit (lines 57–58), one appended
`PauliEvolutionGate` instruction per Trotter step (lines 79–82), and
`measure_all()` (line 93), which appends a barrier followed by one measurement
per qubit.  The qiskit-library failure points inside the `try` blocks are
modelled where qiskit raises: `time / trotter_steps` (line 61) raises
`ZeroDivisionError` when `trotter_steps == 0`, and `SparsePauliOp(...)`
(line 76) raises when some label contains a character outside `I,X,Y,Z`; the
inner `except` (lines 88–90) swallows the latter and proceeds without
evolution gates, the outer `except` (lines 121–128) maps any escaped error to
the mock result.
-/

/-- One instruction of `circuit.data`. -/
inductive Gate where
  | h (q : ℕ)
  | evolution
  | barrier
  | measure (q : ℕ)
deriving DecidableEq, Repr

/-- The `pauli_data` dictionary argument (well-typed: all three keys present). -/
structure PauliData where
  pauli_terms : List (List Char)
  pauli_coefficients : List ℚ
  num_qubits : ℕ
deriving DecidableEq, Repr

/-- The `circuit_info` dictionary (lines 96–101 and 148–153). -/
structure CircuitInfo where
  num_qubits : ℕ
  num_gates : ℕ
  depth : ℕ
  num_pauli_terms : ℕ
deriving DecidableEq, Repr

/-- The dictionary returned by `simulate_hamiltonian` / `_create_mock_circuit_result`.
`circuit` is `none` for the mock (`'circuit': None`, line 180); `mock` models
the `'mock': True` key (line 185), absent (falsy) on the real path;
the textual `qasm` field is not modelled. -/
structure SimResult where
  circuit : Option (List Gate)
  circuit_info : CircuitInfo
  success : Bool
  mock : Bool
  trotter_steps : ℕ
deriving DecidableEq, Repr

/-- `_create_mock_circuit_result(num_qubits, num_pauli_terms, trotter_steps)`
(lines 131–186): `gates_per_term = 3`; `gates_per_step = num_pauli_terms * 3`;
`total_gates = gates_per_step * trotter_steps + num_qubits`;
`depth = trotter_steps * num_pauli_terms`. -/
def create_mock_circuit_result (num_qubits num_pauli_terms trotter_steps : ℕ) :
    SimResult :=
  let gates_per_term := 3
  let gates_per_step := num_pauli_terms * gates_per_term
  let total_gates := gates_per_step * trotter_steps + num_qubits
  { circuit := none
    circuit_info :=
      { num_qubits := num_qubits
        num_gates := total_gates
        depth := trotter_steps * num_pauli_terms
        num_pauli_terms := num_pauli_terms }
    success := true
    mock := true
    trotter_steps := trotter_steps }

/-- A character accepted in a `SparsePauliOp` label. -/
def isPauliChar (c : Char) : Bool := c = 'I' || c = 'X' || c = 'Y' || c = 'Z'

/-- Critical-path depth of the emitted real circuit (`circuit.depth()`,
line 99): the parallel Hadamard layer, each appended evolution instruction
spanning all wires, and the final measurement layer.  No verified claim
depends on this value. -/
def realDepth (num_qubits evolution_count : ℕ) : ℕ :=
  (if num_qubits = 0 then 0 else 1) + evolution_count +
    (if num_qubits = 0 then 0 else 1)

/-- Embedding of `simulate_hamiltonian(pauli_data, time, trotter_steps)`
(lines 20–128) for well-typed input.  `avail` is `QISKIT_AVAILABLE`.
Control flow: if qiskit is unavailable, return the mock (lines 48–50);
otherwise emit the Hadamard layer, compute `dt = time / trotter_steps`
(line 61) — `ZeroDivisionError` when `trotter_steps = 0` escapes to the outer
`except` (lines 121–128) which returns the mock; otherwise build the filtered
term list `[t for t in terms if len(t) == num_qubits]` (lines 70–73), append
one evolution instruction per Trotter step when the filtered list is nonempty
and every filtered label is a valid Pauli string (`SparsePauliOp` raising on an
invalid label is swallowed by the inner `except`, lines 88–90, leaving no
evolution gates), and finish with `measure_all()` and the circuit statistics. -/
def simulate_hamiltonian (avail : Bool) (pd : PauliData) (time : ℚ)
    (trotter_steps : ℕ) : SimResult :=
  let nterms := pd.pauli_terms.length
  if avail = false then
    create_mock_circuit_result pd.num_qubits nterms trotter_steps
  else if trotter_steps = 0 then
    create_mock_circuit_result pd.num_qubits nterms trotter_steps
  else
    let _dt := time / trotter_steps
    let hGates := (List.range pd.num_qubits).map Gate.h
    let zipped := pd.pauli_terms.zip pd.pauli_coefficients
    let filtered := zipped.filter (fun p => p.1.length = pd.num_qubits)
    let evGates : List Gate :=
      if pd.pauli_terms = [] ∨ pd.pauli_coefficients = [] then []
      else if filtered = [] then []
      else if filtered.all (fun p => p.1.all isPauliChar) then
        List.replicate trotter_steps Gate.evolution
      else []
    let gates := hGates ++ evGates ++
      Gate.barrier :: (List.range pd.num_qubits).map Gate.measure
    { circuit := some gates
      circuit_info :=
        { num_qubits := pd.num_qubits
          num_gates := gates.length
          depth := realDepth pd.num_qubits evGates.length
          num_pauli_terms := nterms }
      success := true
      mock := false
      trotter_steps := trotter_steps }

/-!
## `QuantumSimulator._mock_simulation` — reported circuit metrics
`app/services/quantum_simulator.py`, lines 296–298:
`circuit_depth = trotter_steps * len(pauli_decomposition) * 3` and
`gate_count = circuit_depth * qubit_count`.
-/

/-- The `(circuit_depth, gate_count)` pair reported by
`QuantumSimulator._mock_simulation`. -/
def mock_simulation_metrics (qubit_count num_terms trotter_steps : ℕ) : ℕ × ℕ :=
  let circuit_depth := trotter_steps * num_terms * 3
  let gate_count := circuit_depth * qubit_count
  (circuit_depth, gate_count)

/-!
## `QuantumSimulator._calculate_final_amplitudes`
`app/services/quantum_simulator.py`, lines 189–216.

The exponential random draw `np.random.exponential(1.0, num_states)` is an
input `draw` (one positive rational per basis state).  Each returned entry is
embedded as its basis-state bit string and probability; the `amplitude_real`
and `amplitude_imag` fields are `sqrt(p)·cos(phase)` and `sqrt(p)·sin(phase)`
for a second uniform random draw — irrational-valued, and not part of any
property verified here, so they are not carried.
-/

/-- `num_states = min(2**qubit_count, 16)` (line 192). -/
def num_states (qubit_count : ℕ) : ℕ := min (2 ^ qubit_count) 16

/-- `format(i, f'0{qubit_count}b')` (line 200): the width-`qubit_count` binary
string of `i`, most significant bit first (valid for `i < 2^qubit_count`). -/
def state_string (qubit_count i : ℕ) : List Char :=
  (List.range qubit_count).map
    (fun k => if i.testBit (qubit_count - 1 - k) then '1' else '0')

/-- Descending order on probability: the key of
`amplitudes.sort(key=lambda x: x['probability'], reverse=True)` (line 211). -/
def descProb (a b : List Char × ℚ) : Prop := b.2 ≤ a.2

instance : DecidableRel descProb := fun a b => by unfold descProb; infer_instance

/-- Embedding of `_calculate_final_amplitudes` (lines 189–216) as a function of
`qubit_count` and the random draw (length `num_states qubit_count`):
normalize the draw (`probs / np.sum(probs)`, line 197), build one entry per
state `i < num_states` (lines 199–208), sort by descending probability
(line 211), return the top 10 (line 212). -/
def calculate_final_amplitudes (qubit_count : ℕ) (draw : List ℚ) :
    List (List Char × ℚ) :=
  let ns := num_states qubit_count
  let s := draw.sum
  let probs := draw.map (fun x => x / s)
  let entries := (List.range ns).map
    (fun i => (state_string qubit_count i, probs.getD i 0))
  (List.insertionSort descProb entries).take 10

/-!
## `compute_H` — mode-count logic
`qfea_core/classical_utils/hamiltonian_prep.py`, lines 33–122.

The eigensolvers are library calls; an `EigOracle` stands for them, carrying
only the facts used here: `np.linalg.eigh` on a `k × k` matrix returns exactly
`k` eigenvalues, and a successful `scipy.sparse.linalg.eigsh(K, k, M, 'SM')`
returns exactly `k` of them (`none` models the solver raising, which line 53
catches and sends to the reduced dense retry).
-/

/-- Oracle for the external eigensolvers. -/
structure EigOracle where
  eigh : ℕ → List ℚ
  eigh_len : ∀ k, (eigh k).length = k
  eigsh : ℕ → ℤ → Option (List ℚ)
  eigsh_len : ∀ n k l, eigsh n k = some l → l.length = k.toNat

/-- Python slice `l[:stop]` with a possibly negative `stop`. -/
def pySliceStop (l : List ℚ) (stop : ℤ) : List ℚ :=
  if 0 ≤ stop then l.take stop.toNat
  else l.take (l.length - (-stop).toNat)

/-- Embedding of the eigenvalue selection of `compute_H(K, M, num_modes, method)`
(lines 42–88): clamp `num_modes = min(num_modes, n - 2)` (line 43, over ℤ, as
in Python); sparse path (lines 49–63) tries `eigsh` with `k = num_modes` and on
failure retries densely on the leading `min(20, n)` block, slicing
`[:num_modes]`; dense path uses the full matrix when `n <= 1000` (lines 72–77)
and the leading `min(100, n)` block otherwise (lines 79–88), slicing
`[:num_modes]` in both cases. -/
def compute_H_selection (O : EigOracle) (sparseKM : Bool) (n num_modes_req : ℕ) :
    List ℚ :=
  let num_modes : ℤ := min (num_modes_req : ℤ) ((n : ℤ) - 2)
  if sparseKM then
    match O.eigsh n num_modes with
    | some eigs => eigs
    | none =>
      let n_reduced := min 20 n
      pySliceStop (O.eigh n_reduced) num_modes
  else
    if n ≤ 1000 then pySliceStop (O.eigh n) num_modes
    else pySliceStop (O.eigh (min 100 n)) num_modes

/-- The error `compute_H` can raise after the eigenvalue selection. -/
inductive EigErr where
  /-- Line 91: the logging f-string indexes `eigenvalues[0]` (and
  `eigenvalues[-1]`), which raises `IndexError` whenever the selected
  eigenvalue array is empty; the `except` at lines 124–126 logs and
  re-raises it. -/
  | indexError
deriving DecidableEq, Repr

/-- Embedding of the eigenvalue computation of `compute_H(K, M, num_modes,
method)` through the logging at lines 90–91: after the selection, line 91
evaluates `eigenvalues[0]`, so an empty selection raises `IndexError` (which
propagates); otherwise the list is returned as the `'eigenvalues'` field of
the result (line 119).  The `method`-dependent construction of `H` from it
does not affect the eigenvalue count. -/
def compute_H_eigenvalues (O : EigOracle) (sparseKM : Bool) (n num_modes_req : ℕ) :
    Except EigErr (List ℚ) :=
  let eigenvalues := compute_H_selection O sparseKM n num_modes_req
  if eigenvalues.isEmpty then Except.error EigErr.indexError
  else Except.ok eigenvalues

/-!
## Concrete inputs used by counterexamples and witnesses
-/

/-- 4×4 Hermitian matrix with `H[0,0] = 1/2` and `H[0,1] = H[1,0] = 100`. -/
def H_C3 : ℕ → ℕ → CQ := fun i j =>
  if i = 0 ∧ j = 0 then ⟨1/2, 0⟩
  else if (i = 0 ∧ j = 1) ∨ (i = 1 ∧ j = 0) then ⟨100, 0⟩
  else 0

/-- 4×4 Hermitian matrix `diag(2, 0, 0, 0)`. -/
def H_C4 : ℕ → ℕ → CQ := fun i j => if i = 0 ∧ j = 0 then ⟨2, 0⟩ else 0

/-- `pauli_data` with the single invalid one-qubit label `'A'`. -/
def pd_invalid : PauliData :=
  { pauli_terms := [['A']], pauli_coefficients := [1], num_qubits := 1 }

/-- `pauli_data` with the single one-qubit label `'Z'`. -/
def pd_z : PauliData :=
  { pauli_terms := [['Z']], pauli_coefficients := [1], num_qubits := 1 }

/-- An eigensolver oracle whose dense solver returns `k` zeros and whose sparse
solver always fails. -/
def O_dense0 : EigOracle :=
  { eigh := fun k => List.replicate k 0
    eigh_len := fun k => List.length_replicate k 0
    eigsh := fun _ _ => none
    eigsh_len := fun n k l h => by simp at h }

/-!
## Helper lemmas
-/

/-- The squared-compare model of `np.abs(z) > t` coincides with the
square-root formulation `t < √(re² + im²)`. -/
theorem AbsGt_iff_sqrt (z : CQ) (t : ℚ) :
    AbsGt z t ↔ (t : ℝ) < Real.sqrt (((z.re : ℝ)) ^ 2 + ((z.im : ℝ)) ^ 2) := by
  have hnn : (0 : ℝ) ≤ ((z.re : ℝ)) ^ 2 + ((z.im : ℝ)) ^ 2 := by positivity
  constructor
  · rintro (ht | ht)
    · calc (t : ℝ) < 0 := by exact_mod_cast ht
        _ ≤ _ := Real.sqrt_nonneg _
    · rcases lt_or_le t 0 with h0 | h0
      · calc (t : ℝ) < 0 := by exact_mod_cast h0
          _ ≤ _ := Real.sqrt_nonneg _
      · rw [Real.lt_sqrt (by exact_mod_cast h0)]
        have : (t : ℝ) * t < (z.re : ℝ) * z.re + (z.im : ℝ) * z.im := by
          exact_mod_cast ht
        nlinarith
  · intro h
    rcases lt_or_le t 0 with h0 | h0
    · exact Or.inl h0
    · right
      rw [Real.lt_sqrt (by exact_mod_cast h0)] at h
      have : (t : ℝ) * t < (z.re : ℝ) * z.re + (z.im : ℝ) * z.im := by nlinarith
      have := this
      unfold CQ.absSq
      exact_mod_cast this

theorem clog2_two : Nat.clog 2 2 = 1 := by
  rw [Nat.clog_of_two_le one_lt_two le_rfl]; norm_num

theorem clog2_four : Nat.clog 2 4 = 2 := by
  rw [Nat.clog_of_two_le one_lt_two (by norm_num)]
  norm_num [clog2_two]

/-!
## Claim C1
-/

/-- C1 (confirmed): for every Hamiltonian matrix of side `n ≥ 1` entering the
padding stage of `compute_hamiltonian`, the padded dimension is
`2^⌈log₂ n⌉`, is at least `n`, the qubit count is exactly `log₂` of the padded
dimension (the padded dimension being exactly a power of two), and the padded
matrix agrees with the original on the leading `n × n` block and is zero
elsewhere. -/
theorem claim_C1 (H : ℕ → ℕ → CQ) (n : ℕ) (hn : 1 ≤ n) :
    padded_size n = 2 ^ Nat.clog 2 n ∧
    n ≤ padded_size n ∧
    2 ^ qubit_count_of n = padded_size n ∧
    qubit_count_of n = Nat.clog 2 n ∧
    (∀ i < padded_size n, ∀ j < padded_size n,
      ((i < n ∧ j < n) → pad_matrix H n i j = H i j) ∧
      (¬(i < n ∧ j < n) → pad_matrix H n i j = 0)) := by
  have hq : qubit_count_of n = Nat.clog 2 n := by
    unfold qubit_count_of padded_size
    exact Nat.log_pow one_lt_two _
  refine ⟨rfl, Nat.le_pow_clog one_lt_two n, ?_, hq, ?_⟩
  · rw [hq]; rfl
  · intro i hi j hj
    unfold pad_matrix
    by_cases hpad : n = padded_size n
    · rw [if_pos hpad]
      refine ⟨fun _ => rfl, fun hc => absurd ⟨?_, ?_⟩ hc⟩
      · rw [hpad]; exact hi
      · rw [hpad]; exact hj
    · rw [if_neg hpad]
      exact ⟨fun hin => if_pos hin, fun hout => if_neg hout⟩

/-- Witness for C1 at `n = 3`, `H = 0`: the hypotheses hold and, e.g., the
padded side is at least 3 and the out-of-block entry `(0, 3)` is zero
(`padded_size 3 = 4`). -/
theorem claim_C1_witness :
    (1 ≤ 3) ∧ 3 ≤ padded_size 3 ∧
      pad_matrix (fun _ _ => (0 : CQ)) 3 0 3 = 0 := by
  have hps : padded_size 3 = 4 := by
    unfold padded_size
    rw [Nat.clog_of_two_le one_lt_two (by norm_num)]
    norm_num [clog2_two]
  have h := claim_C1 (fun _ _ => (0 : CQ)) 3 (by norm_num)
  refine ⟨by norm_num, h.2.1, ?_⟩
  exact (h.2.2.2.2 0 (by rw [hps]; norm_num) 3 (by rw [hps]; norm_num)).2
    (by norm_num)

/-!
## Claim C2
-/

/-- C2 (code bug): the claim states `compute_hamiltonian` raises iff the
required qubit count exceeds 20 and otherwise returns a populated result.  In
the code, no input ever reaches a successful return: even granted the
Hamiltonian matrix (line 43 in fact binds `H` to a dict, which would already
fail at `H.shape`), the call at lines 63–67 passes keyword arguments
`max_pauli_terms` and `batch_size` that `compute_pauli_coefficients(H,
max_terms, threshold, n_jobs)` does not accept, raising `TypeError`.  At the
1×1 matrix `[[1]]` — qubit count 0 ≤ 20, so the claim promises a result — the
embedding yields the `TypeError`, not a success and not the capacity error. -/
theorem claim_C2_eval :
    compute_hamiltonian (fun _ _ => ⟨1, 0⟩) 1 100 = Except.error PyErr.typeError ∧
      qubit_count_of 1 = 0 := by
  have h1 : Nat.clog 2 1 = 0 := Nat.clog_one_right 2
  constructor
  · unfold compute_hamiltonian padded_size max_qubits
    rw [h1]
    norm_num
  · unfold qubit_count_of padded_size
    rw [h1]
    norm_num

/-!
## Claim C10
-/

/-- Length of the Python slice `l[:stop]`. -/
theorem pySliceStop_length (l : List ℚ) (stop : ℤ) :
    (pySliceStop l stop).length =
      if 0 ≤ stop then min stop.toNat l.length
      else l.length - (-stop).toNat := by
  unfold pySliceStop
  split <;> simp [List.length_take]

/-- For `n ≥ 3` and requested `m > n - 2`, every solver path of `compute_H`
selects at least one and at most `n - 2` eigenvalues. -/
theorem selection_bounds (O : EigOracle) (sparseKM : Bool) (n m : ℕ)
    (hn : 3 ≤ n) (hm : n - 2 < m) :
    1 ≤ (compute_H_selection O sparseKM n m).length ∧
      (compute_H_selection O sparseKM n m).length ≤ n - 2 := by
  unfold compute_H_selection
  have hmin : min (m : ℤ) ((n : ℤ) - 2) = (n : ℤ) - 2 := by omega
  split
  · cases heq : O.eigsh n (min (m : ℤ) ((n : ℤ) - 2)) with
    | some eigs =>
      simp only [heq]
      have hlen := O.eigsh_len n _ eigs heq
      omega
    | none =>
      simp only [heq]
      rw [pySliceStop_length, O.eigh_len, hmin,
        if_pos (by omega : (0 : ℤ) ≤ (n : ℤ) - 2)]
      omega
  · split
    · rw [pySliceStop_length, O.eigh_len, hmin,
        if_pos (by omega : (0 : ℤ) ≤ (n : ℤ) - 2)]
      omega
    · rw [pySliceStop_length, O.eigh_len, hmin,
        if_pos (by omega : (0 : ℤ) ≤ (n : ℤ) - 2)]
      omega

/-- C10 (counterexample): at the 2×2 problem with requested
`num_modes = 3 > n - 2 = 0` — in the claim's scope — the clamp at line 43
empties the eigenvalue selection and line 91's logging f-string
`eigenvalues[0]` raises `IndexError`, re-raised by the handler at lines
124–126: `compute_H` fails precisely on account of the clamp (without the
clamp, `eigenvalues[:3]` of the 2-eigenvalue array is nonempty and the call
succeeds). -/
theorem claim_C10_cex :
    compute_H_eigenvalues O_dense0 false 2 3 =
      Except.error EigErr.indexError := by
  rfl

/-- C10 (amended): for every `n × n` problem with `n ≥ 3` and every requested
`num_modes > n - 2`, `compute_H` does not fail on account of the mode count:
the clamp to `min(num_modes, n - 2)` leaves a nonempty selection on every
solver path, the logging at line 91 succeeds, and the returned eigenvalue
array has at most `n - 2` entries.  For `n ≤ 2` the clamped count is ≤ 0, the
selection is empty, and `compute_H` raises `IndexError` at line 91 (see the
counterexample). -/
theorem claim_C10_amended (O : EigOracle) (sparseKM : Bool) (n m : ℕ)
    (hn : 3 ≤ n) (hm : n - 2 < m) :
    ∃ eigs : List ℚ,
      compute_H_eigenvalues O sparseKM n m = Except.ok eigs ∧
        eigs.length ≤ n - 2 := by
  obtain ⟨h1, h2⟩ := selection_bounds O sparseKM n m hn hm
  refine ⟨compute_H_selection O sparseKM n m, ?_, h2⟩
  unfold compute_H_eigenvalues
  have hne : (compute_H_selection O sparseKM n m).isEmpty = false := by
    cases hsel : compute_H_selection O sparseKM n m with
    | nil => rw [hsel] at h1; simp at h1
    | cons a tl => rfl
  simp [hne]

/-- Witness for C10's amended theorem: `n = 5`, requested `m = 10 > 3`, dense
path — the call succeeds (no `IndexError`). -/
theorem claim_C10_witness :
    (3 ≤ 5) ∧ (5 - 2 < 10) ∧
      compute_H_eigenvalues O_dense0 false 5 10 ≠
        Except.error EigErr.indexError := by
  refine ⟨by norm_num, by norm_num, ?_⟩
  obtain ⟨eigs, heq, _⟩ :=
    claim_C10_amended O_dense0 false 5 10 (by norm_num) (by norm_num)
  rw [heq]
  simp

/-!
## Claims C6, C7, C8 — Trotter synthesizer
-/

/-- At `trotter_steps = 0`, `dt = time / trotter_steps` (line 61) raises
`ZeroDivisionError`, the outer handler returns the mock; with the backend
unavailable the mock is returned directly. -/
theorem simulate_steps_zero (avail : Bool) (pd : PauliData) (time : ℚ) :
    simulate_hamiltonian avail pd time 0 =
      create_mock_circuit_result pd.num_qubits pd.pauli_terms.length 0 := by
  unfold simulate_hamiltonian
  cases avail <;> simp

/-- C6 (counterexample): at the well-typed input whose single Pauli label `'A'`
makes the `SparsePauliOp` construction step raise, the inner handler (lines
88–90) swallows the error and `simulate_hamiltonian` returns an ordinary,
*unflagged* circuit result (Hadamard layer and measurement only) — not the
structurally distinct mock result the claim promises for internal synthesis
errors. -/
theorem claim_C6_cex :
    (pd_invalid.pauli_terms.all (fun s => s.all isPauliChar)) = false ∧
    (simulate_hamiltonian true pd_invalid 1 1).mock = false ∧
    (simulate_hamiltonian true pd_invalid 1 1).circuit =
      some [Gate.h 0, Gate.barrier, Gate.measure 0] := by
  refine ⟨by decide, ?_, ?_⟩ <;> decide

/-- C6 (amended): `simulate_hamiltonian` is total on well-typed input (its
embedding returns a `SimResult` for every argument) and always reports the
input's qubit count unchanged; when the backend is unavailable, or when an
error escapes to the function-level handler (division by zero at
`trotter_steps = 0`), it returns the mock result with the `mock` flag set.
Errors confined to the inner Pauli-operator construction block are instead
swallowed there and produce an unflagged non-mock result (see the
counterexample). -/
theorem claim_C6_amended (avail : Bool) (pd : PauliData) (time : ℚ) (steps : ℕ) :
    (simulate_hamiltonian avail pd time steps).circuit_info.num_qubits =
      pd.num_qubits ∧
    ((avail = false ∨ steps = 0) →
      (simulate_hamiltonian avail pd time steps).mock = true ∧
      simulate_hamiltonian avail pd time steps =
        create_mock_circuit_result pd.num_qubits pd.pauli_terms.length steps) := by
  constructor
  · unfold simulate_hamiltonian create_mock_circuit_result
    cases avail
    · simp
    · by_cases hs : steps = 0 <;> simp [hs]
  · rintro (ha | hs)
    · subst ha
      unfold simulate_hamiltonian create_mock_circuit_result
      simp
    · subst hs
      have h := simulate_steps_zero avail pd time
      rw [h]
      exact ⟨rfl, rfl⟩

/-- Witness for C6 at a concrete degraded call (backend unavailable). -/
theorem claim_C6_witness :
    (simulate_hamiltonian false pd_z 1 2).circuit_info.num_qubits =
        pd_z.num_qubits ∧
      (simulate_hamiltonian false pd_z 1 2).mock = true := by
  have h := claim_C6_amended false pd_z 1 2
  exact ⟨h.1, (h.2 (Or.inl rfl)).1⟩

/-- C7 (counterexample): the claim's formulas fail on the other cited mock,
`QuantumSimulator._mock_simulation` (lines 296–298): at `qubit_count = 2`,
`num_terms = 1`, `trotter_steps = 1` it reports `circuit_depth = 3` and
`gate_count = 6`, while the claim prescribes `depth = 1 × 1 = 1` and
`gate_count = 1 × 3 × 1 + 2 = 5`. -/
theorem claim_C7_cex :
    (mock_simulation_metrics 2 1 1).1 ≠ 1 * 1 ∧
      (mock_simulation_metrics 2 1 1).2 ≠ 1 * 3 * 1 + 2 := by
  constructor <;> decide

/-- C7 (amended): the synthesizer's degraded mock (`_create_mock_circuit_result`,
reached e.g. whenever the backend is unavailable) reports
`gate_count = num_pauli_terms * 3 * trotter_steps + num_qubits` and
`depth = trotter_steps * num_pauli_terms`, exactly as the claim states; the
service-level `QuantumSimulator._mock_simulation` instead reports
`circuit_depth = trotter_steps * num_terms * 3` and
`gate_count = circuit_depth * qubit_count`. -/
theorem claim_C7_amended (pd : PauliData) (time : ℚ) (steps q m : ℕ) :
    (simulate_hamiltonian false pd time steps).circuit_info.num_gates =
      pd.pauli_terms.length * 3 * steps + pd.num_qubits ∧
    (simulate_hamiltonian false pd time steps).circuit_info.depth =
      steps * pd.pauli_terms.length ∧
    (mock_simulation_metrics q m steps).1 = steps * m * 3 ∧
    (mock_simulation_metrics q m steps).2 = steps * m * 3 * q := by
  refine ⟨?_, ?_, rfl, rfl⟩ <;>
    simp [simulate_hamiltonian, create_mock_circuit_result]

/-- C8 (counterexample): at `trotter_steps = 0` the synthesizer does *not*
produce a Hadamard-plus-measurement circuit: `dt = time / trotter_steps`
raises `ZeroDivisionError`, the outer handler returns the mock, whose
`circuit` field is `None`. -/
theorem claim_C8_cex :
    (simulate_hamiltonian true pd_z 1 0).circuit = none ∧
      (simulate_hamiltonian true pd_z 1 0).mock = true := by
  constructor <;> decide

/-- C8 (amended): for every input, calling the synthesizer with
`trotter_steps = 0` returns the degraded mock result (no circuit object,
`mock` flag set, `gate_count = num_qubits`, `depth = 0`), because the division
`dt = time / 0` errors and is caught by the function-level handler. -/
theorem claim_C8_amended (avail : Bool) (pd : PauliData) (time : ℚ) :
    simulate_hamiltonian avail pd time 0 =
      create_mock_circuit_result pd.num_qubits pd.pauli_terms.length 0 ∧
    (simulate_hamiltonian avail pd time 0).circuit = none ∧
    (simulate_hamiltonian avail pd time 0).mock = true ∧
    (simulate_hamiltonian avail pd time 0).circuit_info.num_gates =
      pd.num_qubits ∧
    (simulate_hamiltonian avail pd time 0).circuit_info.depth = 0 := by
  have h := simulate_steps_zero avail pd time
  refine ⟨h, ?_, ?_, ?_, ?_⟩ <;>
    rw [h] <;> simp [create_mock_circuit_result]

/-!
## Claim C9 — final amplitudes
-/

instance : IsTotal (List Char × ℚ) descProb :=
  ⟨fun a b => le_total b.2 a.2⟩

instance : IsTrans (List Char × ℚ) descProb :=
  ⟨fun _ _ _ h1 h2 => le_trans h2 h1⟩

theorem sum_pos_of_pos (l : List ℚ) (hpos : ∀ x ∈ l, 0 < x) (hne : l ≠ []) :
    0 < l.sum := by
  induction l with
  | nil => exact absurd rfl hne
  | cons a tl ih =>
    rw [List.sum_cons]
    rcases tl with _ | ⟨b, tl⟩
    · simpa using hpos a (by simp)
    · have h1 := hpos a (by simp)
      have h2 := ih (fun x hx => hpos x (List.mem_cons_of_mem a hx)) (by simp)
      linarith

theorem getD_range_map (l : List ℚ) :
    (List.range l.length).map (fun i => l.getD i 0) = l := by
  induction l with
  | nil => simp
  | cons a tl ih =>
    rw [List.length_cons, List.range_succ_eq_map, List.map_cons, List.map_map]
    simp only [Function.comp_def, List.getD_cons_zero, List.getD_cons_succ]
    rw [ih]

theorem getD_replicate_lt (a d : ℚ) : ∀ n i, i < n →
    (List.replicate n a).getD i d = a := by
  intro n
  induction n with
  | zero => intro i h; omega
  | succ m ih =>
    intro i h
    cases i with
    | zero => simp [List.replicate_succ]
    | succ k => simpa [List.replicate_succ] using ih k (by omega)

/-- The normalized probability mass sums to 1 when the draw total is nonzero. -/
theorem normalized_sum_one (draw : List ℚ) (hs : draw.sum ≠ 0) :
    (draw.map (fun x => x / draw.sum)).sum = 1 := by
  simp only [div_eq_mul_inv]
  have h := List.sum_map_mul_right draw (fun x => x) (draw.sum)⁻¹
  simp only [List.map_id'] at h
  rw [h]
  exact mul_inv_cancel₀ hs

/-- C9 (amended): for every `qubit_count ≥ 1` and every positive draw of length
`num_states = min(2^qubit_count, 16)`, the returned amplitude list has at most
10 entries and is sorted by descending probability; the *normalized
distribution* sums to exactly 1, and the *returned* probabilities sum to 1
exactly when `num_states ≤ 10`, i.e. `qubit_count ≤ 3` — the `[:10]` truncation
(line 212) drops the remaining mass otherwise (see the counterexample). -/
theorem claim_C9_amended (q : ℕ) (draw : List ℚ) (hq : 1 ≤ q)
    (hlen : draw.length = num_states q) (hpos : ∀ x ∈ draw, 0 < x) :
    (calculate_final_amplitudes q draw).length ≤ 10 ∧
    List.Sorted descProb (calculate_final_amplitudes q draw) ∧
    (draw.map (fun x => x / draw.sum)).sum = 1 ∧
    (q ≤ 3 → ((calculate_final_amplitudes q draw).map Prod.snd).sum = 1) := by
  have hns2 : 2 ≤ num_states q := by
    have h2 : 2 ≤ 2 ^ q := by
      calc 2 = 2 ^ 1 := (pow_one 2).symm
        _ ≤ 2 ^ q := Nat.pow_le_pow_right (by norm_num) hq
    unfold num_states
    omega
  have hne : draw ≠ [] := by
    intro h
    rw [h] at hlen
    simp at hlen
    omega
  have hsum : 0 < draw.sum := sum_pos_of_pos draw hpos hne
  refine ⟨?_, ?_, normalized_sum_one draw hsum.ne', ?_⟩
  · unfold calculate_final_amplitudes
    simp [List.length_take]
  · unfold calculate_final_amplitudes
    exact (List.sorted_insertionSort descProb _).sublist (List.take_sublist _ _)
  · intro hq3
    have hns10 : num_states q ≤ 10 := by
      have h8 : 2 ^ q ≤ 8 := by
        calc 2 ^ q ≤ 2 ^ 3 := Nat.pow_le_pow_right (by norm_num) hq3
          _ = 8 := by norm_num
      unfold num_states
      omega
    unfold calculate_final_amplitudes
    set probs := draw.map (fun x => x / draw.sum) with hprobs
    set entries := (List.range (num_states q)).map
      (fun i => (state_string q i, probs.getD i 0)) with hentries
    have hperm : List.Perm (List.insertionSort descProb entries) entries :=
      List.perm_insertionSort descProb entries
    have hlen2 : (List.insertionSort descProb entries).length ≤ 10 := by
      rw [hperm.length_eq]
      simp only [hentries, List.length_map, List.length_range]
      exact hns10
    rw [List.take_of_length_le hlen2]
    have hmapsum : ((List.insertionSort descProb entries).map Prod.snd).sum =
        (entries.map Prod.snd).sum :=
      (hperm.map Prod.snd).sum_eq
    rw [hmapsum]
    have hsnd : entries.map Prod.snd =
        (List.range (num_states q)).map (fun i => probs.getD i 0) := by
      simp [hentries, List.map_map, Function.comp_def]
    rw [hsnd]
    have hplen : probs.length = num_states q := by
      simp [hprobs, hlen]
    rw [← hplen, getD_range_map]
    exact normalized_sum_one draw hsum.ne'

/-- Witness for C9 at `qubit_count = 1`, draw `[1, 1]`: both returned
probabilities are kept and sum to 1. -/
theorem claim_C9_witness :
    (1 ≤ 1) ∧ (List.replicate 2 (1 : ℚ)).length = num_states 1 ∧
      ((calculate_final_amplitudes 1 (List.replicate 2 1)).map Prod.snd).sum
        = 1 := by
  have h := claim_C9_amended 1 (List.replicate 2 1) le_rfl
    (by simp [num_states]) (by intro x hx; rw [List.eq_of_mem_replicate hx]; norm_num)
  exact ⟨le_rfl, by simp [num_states], h.2.2.2 (by norm_num)⟩

/-- C9 (counterexample): at `qubit_count = 4` (≥ 1) with the uniform draw of
16 ones, `num_states = 16` but only the top 10 entries are returned, so the
returned probabilities sum to `10/16 = 5/8`, not 1 within `1e-6`. -/
theorem claim_C9_cex :
    ((calculate_final_amplitudes 4 (List.replicate 16 (1 : ℚ))).map
        Prod.snd).sum = 5 / 8 ∧
    ¬ (|((calculate_final_amplitudes 4 (List.replicate 16 (1 : ℚ))).map
        Prod.snd).sum - 1| ≤ 1 / 1000000) := by
  have hs : (List.replicate 16 (1 : ℚ)).sum = 16 := by
    rw [List.sum_replicate]; norm_num
  have hmem : ∀ p ∈ calculate_final_amplitudes 4 (List.replicate 16 (1 : ℚ)),
      p.2 = 1 / 16 := by
    intro p hp
    unfold calculate_final_amplitudes at hp
    have hp2 := List.take_subset 10 _ hp
    have hp3 := (List.perm_insertionSort descProb _).mem_iff.1 hp2
    rcases List.mem_map.1 hp3 with ⟨i, hi, rfl⟩
    have hi16 : i < 16 := by
      have := List.mem_range.1 hi
      simpa [num_states] using this
    dsimp only
    rw [List.map_replicate, getD_replicate_lt _ _ 16 i hi16]
    simp only [hs]
  have hlen10 :
      (calculate_final_amplitudes 4 (List.replicate 16 (1 : ℚ))).length = 10 := by
    unfold calculate_final_amplitudes
    rw [List.length_take]
    have hlen : (List.insertionSort descProb ((List.range (num_states 4)).map
        (fun i => (state_string 4 i,
          ((List.replicate 16 (1 : ℚ)).map
            (fun x => x / (List.replicate 16 (1 : ℚ)).sum)).getD i 0)))).length
        = 16 := by
      rw [(List.perm_insertionSort _ _).length_eq]
      simp [num_states]
    rw [hlen]
    norm_num
  have hsum : ((calculate_final_amplitudes 4 (List.replicate 16 (1 : ℚ))).map
      Prod.snd).sum = 5 / 8 := by
    have hall : ∀ x ∈ (calculate_final_amplitudes 4
        (List.replicate 16 (1 : ℚ))).map Prod.snd, x = 1 / 16 := by
      intro x hx
      rcases List.mem_map.1 hx with ⟨p, hp, rfl⟩
      exact hmem p hp
    rw [List.sum_eq_card_nsmul _ (1 / 16 : ℚ) hall, List.length_map, hlen10]
    norm_num
  have habs : |(5 : ℚ) / 8 - 1| = 3 / 8 := by
    have hneg : ((5 : ℚ) / 8 - 1) = -(3 / 8) := by norm_num
    rw [hneg, abs_neg, abs_of_pos (by norm_num : (0 : ℚ) < 3 / 8)]
  refine ⟨hsum, ?_⟩
  rw [hsum, habs]
  norm_num

/-!
## Claims C3, C4, C5 — Pauli decomposition lemmas
-/

instance : IsTotal Candidate descMag :=
  ⟨fun a b => le_total b.2.absSq a.2.absSq⟩

instance : IsTrans Candidate descMag :=
  ⟨fun _ _ _ h1 h2 => le_trans h2 h1⟩

theorem zLoop_acc_mem (H : ℕ → ℕ → CQ) (n nq maxT : ℕ) (t : ℚ) :
    ∀ (l : List ℕ) (acc : List Candidate) (p : Candidate),
      p ∈ acc → p ∈ zLoop H n nq maxT t l acc := by
  intro l
  induction l with
  | nil => intro acc p hp; rw [zLoop]; exact hp
  | cons i rest ih =>
    intro acc p hp
    rw [zLoop]
    dsimp only
    split
    · split
      · exact List.mem_append_left _ hp
      · exact ih _ p (List.mem_append_left _ hp)
    · exact ih _ p hp

theorem zLoop_mem (H : ℕ → ℕ → CQ) (n nq maxT : ℕ) (t : ℚ) :
    ∀ (l : List ℕ) (acc : List Candidate) (p : Candidate),
      p ∈ zLoop H n nq maxT t l acc →
      p ∈ acc ∨ ∃ i, i ∈ l ∧ i < n ∧ AbsGt (H i i) t ∧
        p = (zString i nq, ⟨(H i i).re, 0⟩) := by
  intro l
  induction l with
  | nil => intro acc p hp; rw [zLoop] at hp; exact Or.inl hp
  | cons i rest ih =>
    intro acc p hp
    rw [zLoop] at hp
    dsimp only at hp
    by_cases hc : i < n ∧ AbsGt (H i i) t
    · rw [if_pos hc] at hp
      split at hp
      · rcases List.mem_append.1 hp with h | h
        · exact Or.inl h
        · rcases List.mem_singleton.1 h with rfl
          exact Or.inr ⟨i, List.mem_cons_self i rest, hc.1, hc.2, rfl⟩
      · rcases ih _ p hp with h | ⟨i2, hi2, h1, h2, h3⟩
        · rcases List.mem_append.1 h with h | h
          · exact Or.inl h
          · rcases List.mem_singleton.1 h with rfl
            exact Or.inr ⟨i, List.mem_cons_self i rest, hc.1, hc.2, rfl⟩
        · exact Or.inr ⟨i2, List.mem_cons_of_mem i hi2, h1, h2, h3⟩
    · rw [if_neg hc] at hp
      rcases ih _ p hp with h | ⟨i2, hi2, h1, h2, h3⟩
      · exact Or.inl h
      · exact Or.inr ⟨i2, List.mem_cons_of_mem i hi2, h1, h2, h3⟩

theorem jLoop_acc_mem (H : ℕ → ℕ → CQ) (n nq maxT : ℕ) (t : ℚ) (i : ℕ) :
    ∀ (l : List ℕ) (acc : List Candidate) (p : Candidate),
      p ∈ acc → p ∈ jLoop H n nq maxT t i l acc := by
  intro l
  induction l with
  | nil => intro acc p hp; rw [jLoop]; exact hp
  | cons j rest ih =>
    intro acc p hp
    rw [jLoop]
    dsimp only
    split
    · split
      · split
        · split
          · exact List.mem_append_left _ (List.mem_append_left _ hp)
          · exact ih _ p (List.mem_append_left _ (List.mem_append_left _ hp))
        · split
          · exact List.mem_append_left _ hp
          · exact ih _ p (List.mem_append_left _ hp)
      · split
        · split
          · exact List.mem_append_left _ hp
          · exact ih _ p (List.mem_append_left _ hp)
        · split
          · exact hp
          · exact ih _ p hp
    · split
      · exact hp
      · exact ih _ p hp

theorem jLoop_mem (H : ℕ → ℕ → CQ) (n nq maxT : ℕ) (t : ℚ) (i : ℕ) :
    ∀ (l : List ℕ) (acc : List Candidate) (p : Candidate),
      p ∈ jLoop H n nq maxT t i l acc →
      p ∈ acc ∨ ∃ j, j ∈ l ∧ i < n ∧ j < n ∧
        (p = (pairString 'X' i j nq, ⟨(H i j).re, 0⟩) ∨
         p = (pairString 'Y' i j nq, ⟨(H i j).im, 0⟩)) := by
  intro l
  induction l with
  | nil => intro acc p hp; rw [jLoop] at hp; exact Or.inl hp
  | cons j rest ih =>
    intro acc p hp
    rw [jLoop] at hp
    dsimp only at hp
    by_cases hc : i < n ∧ j < n ∧ AbsGt (H i j) t
    · rw [if_pos hc] at hp
      have hX : ∀ q2 : Candidate,
          q2 = (pairString 'X' i j nq, (⟨(H i j).re, 0⟩ : CQ)) ∨
          q2 = (pairString 'Y' i j nq, (⟨(H i j).im, 0⟩ : CQ)) →
          (∃ j2, j2 ∈ j :: rest ∧ i < n ∧ j2 < n ∧
            (q2 = (pairString 'X' i j2 nq, ⟨(H i j2).re, 0⟩) ∨
             q2 = (pairString 'Y' i j2 nq, ⟨(H i j2).im, 0⟩))) := by
        intro q2 hq2
        exact ⟨j, List.mem_cons_self j rest, hc.1, hc.2.1, hq2⟩
      have hlift : ∀ q2 : Candidate,
          (∃ j2, j2 ∈ rest ∧ i < n ∧ j2 < n ∧
            (q2 = (pairString 'X' i j2 nq, ⟨(H i j2).re, 0⟩) ∨
             q2 = (pairString 'Y' i j2 nq, ⟨(H i j2).im, 0⟩))) →
          (∃ j2, j2 ∈ j :: rest ∧ i < n ∧ j2 < n ∧
            (q2 = (pairString 'X' i j2 nq, ⟨(H i j2).re, 0⟩) ∨
             q2 = (pairString 'Y' i j2 nq, ⟨(H i j2).im, 0⟩))) := by
        rintro q2 ⟨j2, hj2, h1, h2, h3⟩
        exact ⟨j2, List.mem_cons_of_mem j hj2, h1, h2, h3⟩
      by_cases hre : RAbsGt (H i j).re t <;>
        by_cases him : RAbsGt (H i j).im t
      · rw [if_pos hre, if_pos him] at hp
        have hacc2 : ∀ q2 : Candidate,
            q2 ∈ (acc ++ [(pairString 'X' i j nq, (⟨(H i j).re, 0⟩ : CQ))]) ++
              [(pairString 'Y' i j nq, (⟨(H i j).im, 0⟩ : CQ))] →
            q2 ∈ acc ∨
              q2 = (pairString 'X' i j nq, (⟨(H i j).re, 0⟩ : CQ)) ∨
              q2 = (pairString 'Y' i j nq, (⟨(H i j).im, 0⟩ : CQ)) := by
          intro q2 hq2
          rcases List.mem_append.1 hq2 with h | h
          · rcases List.mem_append.1 h with h2 | h2
            · exact Or.inl h2
            · exact Or.inr (Or.inl (List.mem_singleton.1 h2))
          · exact Or.inr (Or.inr (List.mem_singleton.1 h))
        split at hp
        · rcases hacc2 p hp with h | h
          · exact Or.inl h
          · exact Or.inr (hX p h)
        · rcases ih _ p hp with h | h
          · rcases hacc2 p h with h2 | h2
            · exact Or.inl h2
            · exact Or.inr (hX p h2)
          · exact Or.inr (hlift p h)
      · rw [if_pos hre, if_neg him] at hp
        have hacc2 : ∀ q2 : Candidate,
            q2 ∈ acc ++ [(pairString 'X' i j nq, (⟨(H i j).re, 0⟩ : CQ))] →
            q2 ∈ acc ∨
              q2 = (pairString 'X' i j nq, (⟨(H i j).re, 0⟩ : CQ)) := by
          intro q2 hq2
          rcases List.mem_append.1 hq2 with h | h
          · exact Or.inl h
          · exact Or.inr (List.mem_singleton.1 h)
        split at hp
        · rcases hacc2 p hp with h | h
          · exact Or.inl h
          · exact Or.inr (hX p (Or.inl h))
        · rcases ih _ p hp with h | h
          · rcases hacc2 p h with h2 | h2
            · exact Or.inl h2
            · exact Or.inr (hX p (Or.inl h2))
          · exact Or.inr (hlift p h)
      · rw [if_neg hre, if_pos him] at hp
        have hacc2 : ∀ q2 : Candidate,
            q2 ∈ acc ++ [(pairString 'Y' i j nq, (⟨(H i j).im, 0⟩ : CQ))] →
            q2 ∈ acc ∨
              q2 = (pairString 'Y' i j nq, (⟨(H i j).im, 0⟩ : CQ)) := by
          intro q2 hq2
          rcases List.mem_append.1 hq2 with h | h
          · exact Or.inl h
          · exact Or.inr (List.mem_singleton.1 h)
        split at hp
        · rcases hacc2 p hp with h | h
          · exact Or.inl h
          · exact Or.inr (hX p (Or.inr h))
        · rcases ih _ p hp with h | h
          · rcases hacc2 p h with h2 | h2
            · exact Or.inl h2
            · exact Or.inr (hX p (Or.inr h2))
          · exact Or.inr (hlift p h)
      · rw [if_neg hre, if_neg him] at hp
        split at hp
        · exact Or.inl hp
        · rcases ih _ p hp with h | h
          · exact Or.inl h
          · exact Or.inr (hlift p h)
    · rw [if_neg hc] at hp
      split at hp
      · exact Or.inl hp
      · rcases ih _ p hp with h | ⟨j2, hj2, h1, h2, h3⟩
        · exact Or.inl h
        · exact Or.inr ⟨j2, List.mem_cons_of_mem j hj2, h1, h2, h3⟩

theorem iLoop_acc_mem (H : ℕ → ℕ → CQ) (n nq maxT : ℕ) (t : ℚ) :
    ∀ (l : List ℕ) (acc : List Candidate) (p : Candidate),
      p ∈ acc → p ∈ iLoop H n nq maxT t l acc := by
  intro l
  induction l with
  | nil => intro acc p hp; rw [iLoop]; exact hp
  | cons i rest ih =>
    intro acc p hp
    rw [iLoop]
    exact ih _ p (jLoop_acc_mem H n nq maxT t i _ acc p hp)

theorem iLoop_mem (H : ℕ → ℕ → CQ) (n nq maxT : ℕ) (t : ℚ) :
    ∀ (l : List ℕ) (acc : List Candidate) (p : Candidate),
      p ∈ iLoop H n nq maxT t l acc →
      p ∈ acc ∨ ∃ i j, i ∈ l ∧ i < j ∧ j < min nq n ∧ i < n ∧ j < n ∧
        (p = (pairString 'X' i j nq, ⟨(H i j).re, 0⟩) ∨
         p = (pairString 'Y' i j nq, ⟨(H i j).im, 0⟩)) := by
  intro l
  induction l with
  | nil => intro acc p hp; rw [iLoop] at hp; exact Or.inl hp
  | cons i rest ih =>
    intro acc p hp
    rw [iLoop] at hp
    rcases ih _ p hp with h | ⟨i2, j2, hi2, h1, h2, h3, h4, h5⟩
    · rcases jLoop_mem H n nq maxT t i _ acc p h with h2 | ⟨j2, hj2, h1, h3, h4⟩
      · exact Or.inl h2
      · have hj2r := List.mem_range'_1.1 hj2
        refine Or.inr ⟨i, j2, List.mem_cons_self i rest, ?_, ?_, h1, h3, h4⟩
        · omega
        · omega
    · exact Or.inr ⟨i2, j2, List.mem_cons_of_mem i hi2, h1, h2, h3, h4, h5⟩

/-- Membership characterization for the collected candidate list: every
collected candidate is the identity candidate (present only when
`np.abs(trace) > threshold`), a Z candidate at some `i < min(num_qubits, n)`,
or an XX/YY candidate at some `i < j < min(num_qubits, n)`. -/
theorem collect_mem (H : ℕ → ℕ → CQ) (n nq maxT : ℕ) (t : ℚ) (p : Candidate)
    (hp : p ∈ collectCandidatesAux H n nq maxT t) :
    (AbsGt (traceCQ H n) t ∧
      p = (List.replicate nq 'I', (traceCQ H n).divNat n)) ∨
    (∃ i, i < min nq n ∧ AbsGt (H i i) t ∧
      p = (zString i nq, ⟨(H i i).re, 0⟩)) ∨
    (∃ i j, i < j ∧ j < min nq n ∧
      (p = (pairString 'X' i j nq, ⟨(H i j).re, 0⟩) ∨
       p = (pairString 'Y' i j nq, ⟨(H i j).im, 0⟩))) := by
  have main : ∀ (acc0 : List Candidate),
      (∀ q2 ∈ acc0, AbsGt (traceCQ H n) t ∧
        q2 = (List.replicate nq 'I', (traceCQ H n).divNat n)) →
      p ∈ (if (zLoop H n nq maxT t (List.range (min nq n)) acc0).length < maxT
          then iLoop H n nq maxT t (List.range (min nq (n - 1)))
            (zLoop H n nq maxT t (List.range (min nq n)) acc0)
          else zLoop H n nq maxT t (List.range (min nq n)) acc0) →
      (AbsGt (traceCQ H n) t ∧
        p = (List.replicate nq 'I', (traceCQ H n).divNat n)) ∨
      (∃ i, i < min nq n ∧ AbsGt (H i i) t ∧
        p = (zString i nq, ⟨(H i i).re, 0⟩)) ∨
      (∃ i j, i < j ∧ j < min nq n ∧
        (p = (pairString 'X' i j nq, ⟨(H i j).re, 0⟩) ∨
         p = (pairString 'Y' i j nq, ⟨(H i j).im, 0⟩))) := by
    intro acc0 hacc0 hp2
    have hacc1 : ∀ q2 : Candidate,
        q2 ∈ zLoop H n nq maxT t (List.range (min nq n)) acc0 →
        (AbsGt (traceCQ H n) t ∧
          q2 = (List.replicate nq 'I', (traceCQ H n).divNat n)) ∨
        (∃ i, i < min nq n ∧ AbsGt (H i i) t ∧
          q2 = (zString i nq, ⟨(H i i).re, 0⟩)) := by
      intro q2 hq2
      rcases zLoop_mem H n nq maxT t _ _ q2 hq2 with h | ⟨i, hi, h1, h2, h3⟩
      · exact Or.inl (hacc0 q2 h)
      · exact Or.inr ⟨i, List.mem_range.1 hi, h2, h3⟩
    split at hp2
    · rcases iLoop_mem H n nq maxT t _ _ p hp2 with
        h | ⟨i, j, _, h1, h2, _, _, h5⟩
      · rcases hacc1 p h with h2 | h2
        · exact Or.inl h2
        · exact Or.inr (Or.inl h2)
      · exact Or.inr (Or.inr ⟨i, j, h1, h2, h5⟩)
    · rcases hacc1 p hp2 with h | h
      · exact Or.inl h
      · exact Or.inr (Or.inl h)
  unfold collectCandidatesAux at hp
  dsimp only at hp
  by_cases habs : AbsGt (traceCQ H n) t
  · rw [if_pos habs] at hp
    exact main _ (fun q2 hq2 => ⟨habs, List.mem_singleton.1 hq2⟩) hp
  · rw [if_neg habs] at hp
    exact main _ (fun q2 hq2 => absurd hq2 (List.not_mem_nil q2)) hp

theorem identity_mem_collect (H : ℕ → ℕ → CQ) (n nq maxT : ℕ) (t : ℚ)
    (habs : AbsGt (traceCQ H n) t) :
    (List.replicate nq 'I', (traceCQ H n).divNat n) ∈
      collectCandidatesAux H n nq maxT t := by
  unfold collectCandidatesAux
  dsimp only
  rw [if_pos habs]
  have h1 : (List.replicate nq 'I', (traceCQ H n).divNat n) ∈
      zLoop H n nq maxT t (List.range (min nq n))
        [(List.replicate nq 'I', (traceCQ H n).divNat n)] :=
    zLoop_acc_mem H n nq maxT t (List.range (min nq n))
      [(List.replicate nq 'I', (traceCQ H n).divNat n)]
      (List.replicate nq 'I', (traceCQ H n).divNat n)
      (List.mem_singleton.2 rfl)
  split
  · exact iLoop_acc_mem H n nq maxT t _ _ _ h1
  · exact h1

theorem zString_length (i nq : ℕ) (h : i < nq) : (zString i nq).length = nq := by
  simp [zString]
  omega

theorem pairString_length (c : Char) (i j nq : ℕ) :
    (pairString c i j nq).length = nq := by
  simp [pairString]

theorem zString_chars (i nq : ℕ) : ∀ ch ∈ zString i nq, ch = 'I' ∨ ch = 'Z' := by
  intro ch hch
  rcases List.mem_append.1 hch with h | h
  · exact Or.inl (List.eq_of_mem_replicate h)
  · rcases List.mem_cons.1 h with h2 | h2
    · exact Or.inr h2
    · exact Or.inl (List.eq_of_mem_replicate h2)

theorem pairString_chars (c : Char) (i j nq : ℕ) :
    ∀ ch ∈ pairString c i j nq, ch = c ∨ ch = 'I' := by
  intro ch hch
  rcases List.mem_map.1 hch with ⟨k, _, hk⟩
  split_ifs at hk
  · exact Or.inl hk.symm
  · exact Or.inl hk.symm
  · exact Or.inr hk.symm

theorem zString_has_Z (i nq : ℕ) : 'Z' ∈ zString i nq := by
  simp [zString]

theorem pairString_has (c : Char) (i j nq : ℕ) (hi : i < nq) :
    c ∈ pairString c i j nq := by
  refine List.mem_map.2 ⟨i, List.mem_range.2 hi, ?_⟩
  simp

theorem zString_ne_id (i nq : ℕ) : zString i nq ≠ List.replicate nq 'I' := by
  intro h
  have h2 := zString_has_Z i nq
  rw [h] at h2
  have h3 := List.eq_of_mem_replicate h2
  exact absurd h3 (by decide)

theorem pairString_ne_id (c : Char) (hc : c ≠ 'I') (i j nq : ℕ) (hi : i < nq) :
    pairString c i j nq ≠ List.replicate nq 'I' := by
  intro h
  have h2 := pairString_has c i j nq hi
  rw [h] at h2
  exact absurd (List.eq_of_mem_replicate h2) hc

theorem herm_diag_im (H : ℕ → ℕ → CQ) (n : ℕ) (hH : IsHermitian H n) (i : ℕ)
    (hi : i < n) : (H i i).im = 0 := by
  have h := hH i hi i hi
  have h2 := congrArg CQ.im h
  simp only [CQ.conj] at h2
  linarith

theorem sum_im_CQ (l : List CQ) : l.sum.im = (l.map CQ.im).sum := by
  induction l with
  | nil => rfl
  | cons a tl ih =>
    rw [List.sum_cons, List.map_cons, List.sum_cons, ← ih]
    rfl

theorem trace_im_zero (H : ℕ → ℕ → CQ) (n : ℕ) (hH : IsHermitian H n) :
    (traceCQ H n).im = 0 := by
  unfold traceCQ
  rw [sum_im_CQ]
  apply List.sum_eq_zero
  intro x hx
  rcases List.mem_map.1 hx with ⟨y, hy, rfl⟩
  rcases List.mem_map.1 hy with ⟨i, hi, rfl⟩
  exact herm_diag_im H n hH i (List.mem_range.1 hi)

theorem collect_im_zero (H : ℕ → ℕ → CQ) (n nq maxT : ℕ) (t : ℚ)
    (hH : IsHermitian H n) :
    ∀ p ∈ collectCandidatesAux H n nq maxT t, p.2.im = 0 := by
  intro p hp
  rcases collect_mem H n nq maxT t p hp with
    ⟨_, rfl⟩ | ⟨i, _, _, rfl⟩ | ⟨i, j, _, _, rfl | rfl⟩
  · show ((traceCQ H n).divNat n).im = 0
    unfold CQ.divNat
    rw [trace_im_zero H n hH]
    simp
  · rfl
  · rfl
  · rfl

theorem mul_self_le_iff_abs_le (x y : ℚ) : x * x ≤ y * y ↔ |x| ≤ |y| := by
  constructor
  · intro h
    nlinarith [abs_nonneg x, abs_nonneg y, abs_mul_abs_self x, abs_mul_abs_self y]
  · intro h
    nlinarith [abs_nonneg x, abs_mul_abs_self x, abs_mul_abs_self y]

/-!
## Claim C4
-/

/-- C4 (amended): the all-identity candidate has coefficient `trace(H)/n`, and
it is included in the candidate set iff `np.abs(trace(H)) > threshold` — the
source (line 67) tests the *trace*, not the coefficient `trace/n` that the
claim (and spec §4.2) names. -/
theorem claim_C4_amended (H : ℕ → ℕ → CQ) (n maxT : ℕ) (t : ℚ) (hn : 1 ≤ n) :
    ((List.replicate (numQubits n) 'I', (traceCQ H n).divNat n) ∈
        collectCandidates H n maxT t ↔ AbsGt (traceCQ H n) t) ∧
    (∀ c : CQ,
      (List.replicate (numQubits n) 'I', c) ∈ collectCandidates H n maxT t →
      c = (traceCQ H n).divNat n) := by
  have hne_z : ∀ (i : ℕ) (c : CQ),
      (List.replicate (numQubits n) 'I', c) ≠
        ((zString i (numQubits n) : List Char),
          (⟨(H i i).re, 0⟩ : CQ)) := by
    intro i c heq
    have h1 := congrArg Prod.fst heq
    dsimp at h1
    exact absurd h1.symm (zString_ne_id i (numQubits n))
  have hne_p : ∀ (ch : Char) (hch : ch ≠ 'I') (i j : ℕ) (hij : i < j)
      (hj : j < min (numQubits n) n) (c d : CQ),
      (List.replicate (numQubits n) 'I', c) ≠
        ((pairString ch i j (numQubits n) : List Char), d) := by
    intro ch hch i j hij hj c d heq
    have h1 := congrArg Prod.fst heq
    dsimp at h1
    have hi : i < numQubits n := by omega
    exact absurd h1.symm (pairString_ne_id ch hch i j (numQubits n) hi)
  constructor
  · constructor
    · intro hmem
      rcases collect_mem H n (numQubits n) maxT t _ hmem with
        ⟨habs, _⟩ | ⟨i, hi, _, heq⟩ | ⟨i, j, hij, hj, heq | heq⟩
      · exact habs
      · exact absurd heq (hne_z i _)
      · exact absurd heq (hne_p 'X' (by decide) i j hij hj _ _)
      · exact absurd heq (hne_p 'Y' (by decide) i j hij hj _ _)
    · exact identity_mem_collect H n (numQubits n) maxT t
  · intro c hmem
    rcases collect_mem H n (numQubits n) maxT t _ hmem with
      ⟨_, heq⟩ | ⟨i, hi, _, heq⟩ | ⟨i, j, hij, hj, heq | heq⟩
    · have h2 := congrArg Prod.snd heq
      dsimp at h2
      exact h2
    · exact absurd heq (hne_z i _)
    · exact absurd heq (hne_p 'X' (by decide) i j hij hj _ _)
    · exact absurd heq (hne_p 'Y' (by decide) i j hij hj _ _)

/-!
## Claim C5
-/

/-- Every Pauli string of the returned decomposition comes from a collected
candidate. -/
theorem result_term_from_collect (H : ℕ → ℕ → CQ) (n maxT : ℕ) (t : ℚ) :
    ∀ op ∈ (compute_pauli_coefficients H n maxT t).pauli_terms,
      ∃ c : CQ, ((op : List Char), c) ∈
        collectCandidatesAux H n (numQubits n) maxT t := by
  intro op hop
  unfold compute_pauli_coefficients compute_pauli_coefficients_aux at hop
  dsimp only at hop
  rcases List.mem_map.1 hop with ⟨p, hp, rfl⟩
  have h1 := List.take_subset maxT _ hp
  have h2 := (List.perm_insertionSort descMag
    (collectCandidatesAux H n (numQubits n) maxT t)).mem_iff.1 h1
  exact ⟨p.2, h2⟩

/-- C5 (confirmed): every operator string in a produced decomposition has
length exactly `num_qubits = ceil(log2 n)` and is drawn from {I, X, Y, Z} —
for the identity term, the per-qubit Z terms and the pairwise XX/YY terms. -/
theorem claim_C5 (H : ℕ → ℕ → CQ) (n maxT : ℕ) (t : ℚ) (hn : 1 ≤ n) :
    ∀ op ∈ (compute_pauli_coefficients H n maxT t).pauli_terms,
      op.length = numQubits n ∧
      ∀ ch ∈ op, ch = 'I' ∨ ch = 'X' ∨ ch = 'Y' ∨ ch = 'Z' := by
  intro op hop
  rcases result_term_from_collect H n maxT t op hop with ⟨c, hc⟩
  rcases collect_mem H n (numQubits n) maxT t _ hc with
    ⟨_, heq⟩ | ⟨i, hi, _, heq⟩ | ⟨i, j, hij, hj, heq | heq⟩
  · have h1 := congrArg Prod.fst heq
    dsimp at h1
    subst h1
    refine ⟨by simp, fun ch hch => Or.inl (List.eq_of_mem_replicate hch)⟩
  · have h1 := congrArg Prod.fst heq
    dsimp at h1
    subst h1
    have hilt : i < numQubits n := lt_of_lt_of_le hi (min_le_left _ _)
    refine ⟨zString_length i (numQubits n) hilt, fun ch hch => ?_⟩
    rcases zString_chars i (numQubits n) ch hch with h | h
    · exact Or.inl h
    · exact Or.inr (Or.inr (Or.inr h))
  · have h1 := congrArg Prod.fst heq
    dsimp at h1
    subst h1
    refine ⟨pairString_length 'X' i j (numQubits n), fun ch hch => ?_⟩
    rcases pairString_chars 'X' i j (numQubits n) ch hch with h | h
    · exact Or.inr (Or.inl h)
    · exact Or.inl h
  · have h1 := congrArg Prod.fst heq
    dsimp at h1
    subst h1
    refine ⟨pairString_length 'Y' i j (numQubits n), fun ch hch => ?_⟩
    rcases pairString_chars 'Y' i j (numQubits n) ch hch with h | h
    · exact Or.inr (Or.inr (Or.inl h))
    · exact Or.inl h

/-!
## Claim C3
-/

/-- C3 (amended): the returned decomposition is the *collected* candidate
sequence — collection stops early once `max_terms` candidates have
accumulated (the Z loop breaks there; the XX/YY stage runs only if fewer than
`max_terms` candidates were collected so far and its inner loops break there) —
sorted by descending coefficient magnitude and truncated to `max_terms`.
Consequently: at most `max_terms` terms, coefficients sorted by descending
absolute value, every kept term originates from a collected candidate, and no
*collected* candidate of larger magnitude is displaced by a kept one of
smaller magnitude — but a candidate that is never generated because the cap
was already reached can have arbitrarily large magnitude (see the
counterexample). -/
theorem claim_C3_amended (H : ℕ → ℕ → CQ) (n maxT : ℕ) (t : ℚ) (hn : 1 ≤ n)
    (hH : IsHermitian H n) :
    (compute_pauli_coefficients H n maxT t).pauli_terms.length ≤ maxT ∧
    (compute_pauli_coefficients H n maxT t).num_terms ≤ maxT ∧
    List.Sorted (fun a b : ℚ => |b| ≤ |a|)
      (compute_pauli_coefficients H n maxT t).pauli_coefficients ∧
    (∀ op ∈ (compute_pauli_coefficients H n maxT t).pauli_terms,
      ∃ c : CQ, ((op : List Char), c) ∈ collectCandidates H n maxT t) ∧
    (∀ p ∈ (List.insertionSort descMag
        (collectCandidates H n maxT t)).take maxT,
      ∀ q2 ∈ (List.insertionSort descMag
        (collectCandidates H n maxT t)).drop maxT, descMag p q2) ∧
    (compute_pauli_coefficients H n maxT t).pauli_terms =
      ((List.insertionSort descMag
        (collectCandidates H n maxT t)).take maxT).map Prod.fst := by
  have hsorted : List.Sorted descMag (List.insertionSort descMag
      (collectCandidatesAux H n (numQubits n) maxT t)) :=
    List.sorted_insertionSort descMag _
  have hfinal : List.Pairwise descMag ((List.insertionSort descMag
      (collectCandidatesAux H n (numQubits n) maxT t)).take maxT) :=
    hsorted.sublist (List.take_sublist _ _)
  have him : ∀ p ∈ (List.insertionSort descMag
      (collectCandidatesAux H n (numQubits n) maxT t)).take maxT,
      p.2.im = 0 := by
    intro p hp
    have h1 := List.take_subset maxT _ hp
    have h2 := (List.perm_insertionSort descMag _).mem_iff.1 h1
    exact collect_im_zero H n (numQubits n) maxT t hH p h2
  refine ⟨?_, ?_, ?_, ?_, ?_, rfl⟩
  · unfold compute_pauli_coefficients compute_pauli_coefficients_aux
    dsimp only
    rw [List.length_map, List.length_take]
    exact min_le_left _ _
  · unfold compute_pauli_coefficients compute_pauli_coefficients_aux
    dsimp only
    rw [List.length_take]
    exact min_le_left _ _
  · show List.Pairwise (fun a b : ℚ => |b| ≤ |a|)
      (((List.insertionSort descMag
        (collectCandidatesAux H n (numQubits n) maxT t)).take maxT).map
        (fun p => p.2.re))
    rw [List.pairwise_map]
    refine hfinal.imp_of_mem ?_
    intro a b ha hb hr
    have hima := him a ha
    have himb := him b hb
    have hr2 : b.2.re * b.2.re ≤ a.2.re * a.2.re := by
      have := hr
      unfold descMag CQ.absSq at this
      rw [hima, himb] at this
      nlinarith
    exact (mul_self_le_iff_abs_le _ _).1 hr2
  · exact result_term_from_collect H n maxT t
  · intro p hp q2 hq2
    exact hsorted.rel_of_mem_take_of_mem_drop hp hq2

/-!
## Concrete evaluations and the remaining counterexamples / witnesses
-/

theorem CQ_add_def (a b : CQ) : a + b = ⟨a.re + b.re, a.im + b.im⟩ := rfl

theorem CQ_zero_def : (0 : CQ) = ⟨0, 0⟩ := rfl

theorem CQ_zero_re : (0 : CQ).re = 0 := rfl

theorem CQ_zero_im : (0 : CQ).im = 0 := rfl

theorem trace_H_C3 : traceCQ H_C3 4 = ⟨1/2, 0⟩ := by
  norm_num [traceCQ, H_C3, List.range_succ, CQ_add_def, CQ_zero_re, CQ_zero_im]

theorem trace_H_C4 : traceCQ H_C4 4 = ⟨2, 0⟩ := by
  norm_num [traceCQ, H_C4, List.range_succ, CQ_add_def, CQ_zero_re, CQ_zero_im]

/-- Collection run on `H_C3` with `max_terms = 2`: the identity and the
qubit-0 Z candidate fill the cap, so the XX stage never runs and the
coefficient-100 XX candidate is never generated. -/
theorem eval_collect_H_C3 :
    collectCandidatesAux H_C3 4 2 2 (1/1000000) =
      [(['I','I'], ⟨1/8, 0⟩), (['Z','I'], ⟨1/2, 0⟩)] := by
  unfold collectCandidatesAux
  norm_num [trace_H_C3, AbsGt, CQ.absSq, CQ.divNat, List.range_succ, zLoop,
    H_C3, zString, CQ_zero_re, CQ_zero_im, List.replicate_succ]

theorem eval_pauli_H_C3 :
    compute_pauli_coefficients H_C3 4 2 (1/1000000) =
      { pauli_terms := [['Z','I'], ['I','I']],
        pauli_coefficients := [1/2, 1/8],
        num_qubits := 2, num_terms := 2 } := by
  unfold compute_pauli_coefficients numQubits
  rw [clog2_four]
  unfold compute_pauli_coefficients_aux
  rw [eval_collect_H_C3]
  norm_num [List.insertionSort, List.orderedInsert, descMag, CQ.absSq]

/-- The spec-side full candidate set on `H_C3` contains the XX candidate with
coefficient 100, so its sorted top 2 differ from the code's output. -/
theorem eval_spec_H_C3 :
    (specDecomposition H_C3 4 2 (1/1000000)).map Prod.fst =
      [['X','X'], ['Z','I']] := by
  unfold specDecomposition specFullCandidates numQubits
  rw [clog2_four]
  unfold specFullCandidatesAux
  norm_num [trace_H_C3, AbsGt, RAbsGt, CQ.absSq, CQ.divNat, List.range_succ,
    H_C3, zString, pairString, CQ_zero_re, CQ_zero_im, List.replicate_succ,
    List.insertionSort, List.orderedInsert, descMag, List.range',
    List.filterMap_cons, List.filterMap_nil]

/-- C3 (counterexample): on the Hermitian 4×4 matrix with `H[0,0] = 1/2` and
`H[0,1] = H[1,0] = 100`, with `max_terms = 2` and threshold `1e-6`, the code
returns the terms `[ZI, II]` (coefficients `1/2, 1/8`); the claim's
truncate-after-full-sort decomposition is `[XX, ZI]` (coefficients `100, 1/2`):
generation stopped at the cap before the magnitude-100 XX candidate was seen. -/
theorem claim_C3_cex :
    (compute_pauli_coefficients H_C3 4 2 (1/1000000)).pauli_terms ≠
      (specDecomposition H_C3 4 2 (1/1000000)).map Prod.fst := by
  rw [eval_pauli_H_C3, eval_spec_H_C3]
  decide

/-- Witness for C3's amended theorem at the counterexample input. -/
theorem claim_C3_witness :
    (1 ≤ 4) ∧ IsHermitian H_C3 4 ∧
      (compute_pauli_coefficients H_C3 4 2 (1/1000000)).pauli_terms.length
        ≤ 2 := by
  have hH : IsHermitian H_C3 4 := by
    intro i hi j hj
    interval_cases i <;> interval_cases j <;> rfl
  exact ⟨by norm_num, hH,
    (claim_C3_amended H_C3 4 2 (1/1000000) (by norm_num) hH).1⟩

/-- C4 (counterexample): on `H_C4 = diag(2,0,0,0)` with threshold 1 the
identity candidate (coefficient `trace/4 = 1/2`) IS included — line 67 tests
`np.abs(trace) = 2 > 1` — although `np.abs(trace/4) = 1/2 > 1` is false, so
the claim's "iff |trace/n| > threshold" fails. -/
theorem claim_C4_cex :
    (List.replicate (numQubits 4) 'I', (traceCQ H_C4 4).divNat 4) ∈
        collectCandidates H_C4 4 10 1 ∧
      ¬ AbsGt ((traceCQ H_C4 4).divNat 4) 1 := by
  constructor
  · exact identity_mem_collect H_C4 4 (numQubits 4) 10 1
      (by norm_num [trace_H_C4, AbsGt, CQ.absSq])
  · norm_num [trace_H_C4, AbsGt, CQ.absSq, CQ.divNat]

/-- Witness for C4's amended theorem at `H_C4`. -/
theorem claim_C4_witness :
    (1 ≤ 4) ∧
      ((List.replicate (numQubits 4) 'I', (traceCQ H_C4 4).divNat 4) ∈
          collectCandidates H_C4 4 10 1 ↔ AbsGt (traceCQ H_C4 4) 1) :=
  ⟨by norm_num, (claim_C4_amended H_C4 4 10 1 (by norm_num)).1⟩

/-- Witness for C5 at the concrete decomposition of `H_C3`: the kept term
`ZI` has length `numQubits 4 = 2`. -/
theorem claim_C5_witness :
    (1 ≤ 4) ∧ (['Z','I'] : List Char).length = numQubits 4 := by
  have hop : (['Z','I'] : List Char) ∈
      (compute_pauli_coefficients H_C3 4 2 (1/1000000)).pauli_terms := by
    rw [eval_pauli_H_C3]
    exact List.mem_cons_self _ _
  exact ⟨by norm_num,
    (claim_C5 H_C3 4 2 (1/1000000) (by norm_num) _ hop).1⟩
